import Mathlib

/-!
# Verification of the deep-mae multimodal ranking and evaluation pipeline

Shallow embedding of `deep_mae/multimodal.py`, together with the functions
`rank_hits`, `onehot` and `cross_validation` that the test suite
`deep_mae/test_multimodal.py` imports; those three are absent from the
source tree, so they are modelled from the specification, pinned by the
test oracle where it fixes concrete behaviour.  Matrices are lists of rows
over `ℚ`; numpy floating-point numbers are modelled by exact rationals,
and transcendental functions (`log`, `exp`, p-values) are abstracted as
function parameters constrained only by the properties the statements use.
-/

namespace DeepMae

/-- Stable ascending argsort of a list of rationals: the indices
`0, …, l.length - 1` sorted so that the corresponding values are
non-decreasing.  Models `np.argsort` as used for top-k selection; ties
keep index order, which is the tie-break the test oracle exhibits. -/
def argsort (l : List ℚ) : List ℕ :=
  List.insertionSort (fun i j => l.getD i 0 ≤ l.getD j 0) (List.range l.length)

/-- Last `k` elements of a list — the numpy slice `xs[-k:]`. -/
def takeLast (k : ℕ) (l : List α) : List α := l.drop (l.length - k)

/-- Modelled from the spec: the per-row top-k selection of `rankHits`
(§4.4 TopKRanker; the function `rank_hits` is imported by
`test_multimodal.py` but missing from `multimodal.py` in the tree).
Select the `k` column indices with the largest values, paired with their
values, in ascending value order. -/
def topAsc (row : List ℚ) (k : ℕ) : List (ℕ × ℚ) :=
  (takeLast k (argsort row)).map fun j => (j, row.getD j 0)

/-- Modelled from the spec: `rankHits` over column indices (§4.4 and the
§8 determinism oracle, pinned by `test_rank_hits`).  For each rank
position `p < k` in ascending order and each row `r` in native order,
emit `(r, rank value, destination index)` — the position-major
(pandas melt) emission order the test oracle fixes. -/
def rankHitsIdx (mat : List (List ℚ)) (k : ℕ) : List (ℕ × ℚ × ℕ) :=
  (List.range k).flatMap fun p =>
    mat.enum.map fun sr =>
      (sr.1, ((topAsc sr.2 k).getD p (0, 0)).2, ((topAsc sr.2 k).getD p (0, 0)).1)

/-- Modelled from the spec: `rankHits` with row and column labels,
producing the `(src, rank, dest)` triples of §4.4/§8
(test `test_rank_hits`). -/
def rank_hits (rowIds colIds : List String) (mat : List (List ℚ)) (k : ℕ) :
    List (String × ℚ × String) :=
  (rankHitsIdx mat k).map fun t => (rowIds.getD t.1 "", t.2.1, colIds.getD t.2.2 "")

/-- C1: `rank_hits` applied to the 3×5 oracle matrix with row labels
`OTU_1..OTU_3`, column labels `MS_1..MS_5` and `k = 2` returns exactly the
six `(src, rank, dest)` triples of the test oracle, in that order. -/
theorem c1_rank_hits_oracle :
    rank_hits ["OTU_1", "OTU_2", "OTU_3"] ["MS_1", "MS_2", "MS_3", "MS_4", "MS_5"]
      [[1, 4, 1, 5, 7], [2, 6, 9, 2, 8], [2, 2, 6, 8, 4]] 2 =
    [("OTU_1", 5, "MS_4"), ("OTU_2", 8, "MS_5"), ("OTU_3", 6, "MS_3"),
     ("OTU_1", 7, "MS_5"), ("OTU_2", 9, "MS_3"), ("OTU_3", 8, "MS_4")] := by
  decide

/-- Spec-as-written variant of the emission order, for comparison with
`rankHitsIdx`: §4.4 reads "row by row, rows processed in the matrix's
native row order", i.e. all `k` triples of row 0 first, then all triples
of row 1, and so on. -/
def rankHitsRowMajor (mat : List (List ℚ)) (k : ℕ) : List (ℕ × ℚ × ℕ) :=
  mat.enum.flatMap fun sr => (topAsc sr.2 k).map fun jv => (sr.1, jv.2, jv.1)

theorem argsort_perm (l : List ℚ) : (argsort l).Perm (List.range l.length) :=
  List.perm_insertionSort _ _

theorem argsort_sorted (l : List ℚ) :
    (argsort l).Sorted fun i j => l.getD i 0 ≤ l.getD j 0 := by
  haveI : IsTotal ℕ fun i j => l.getD i 0 ≤ l.getD j 0 := ⟨fun a b => le_total _ _⟩
  haveI : IsTrans ℕ fun i j => l.getD i 0 ≤ l.getD j 0 :=
    ⟨fun a b c hab hbc => le_trans hab hbc⟩
  exact List.sorted_insertionSort _ _

theorem argsort_length (l : List ℚ) : (argsort l).length = l.length := by
  simp [argsort, List.length_insertionSort]

theorem getD_flatMap_block {α β : Type} (l : List α) (f : α → List β) (n : ℕ)
    (hl : ∀ a ∈ l, (f a).length = n) (d : β) (dl : α) :
    ∀ p r, p < l.length → r < n →
      (l.flatMap f).getD (p * n + r) d = (f (l.getD p dl)).getD r d := by
  induction l with
  | nil => intro p r hp _; exact absurd hp (by simp)
  | cons a l ih =>
    intro p r hp hr
    rw [List.flatMap_cons]
    cases p with
    | zero =>
      have hfa : (f a).length = n := hl a (List.mem_cons_self a l)
      rw [Nat.zero_mul, Nat.zero_add, List.getD_append _ _ _ r (by omega),
        List.getD_cons_zero]
    | succ p =>
      have hfa : (f a).length = n := hl a (List.mem_cons_self a l)
      have hge : (f a).length ≤ (p + 1) * n + r := by
        have : (p + 1) * n = n + p * n := by ring
        omega
      rw [List.getD_append_right _ _ _ _ hge, List.getD_cons_succ]
      have hidx : (p + 1) * n + r - (f a).length = p * n + r := by
        have : (p + 1) * n = n + p * n := by ring
        omega
      rw [hidx]
      exact ih (fun b hb => hl b (List.mem_cons_of_mem a hb)) p r (by simpa using hp) hr

/-- C2 counterexample: on the §8 oracle matrix with `k = 2`, the output
of the top-k ranker is not the row-major emission §4.4 describes — the
triple at output position 1 already comes from row 1, not row 0. -/
theorem c2_rank_hits_not_row_major :
    rankHitsIdx [[1, 4, 1, 5, 7], [2, 6, 9, 2, 8], [2, 2, 6, 8, 4]] 2 ≠
      rankHitsRowMajor [[1, 4, 1, 5, 7], [2, 6, 9, 2, 8], [2, 2, 6, 8, 4]] 2 ∧
    ((rankHitsIdx [[1, 4, 1, 5, 7], [2, 6, 9, 2, 8], [2, 2, 6, 8, 4]] 2).getD 1
        (0, 0, 0)).1 = 1 := by
  decide

/-- C2 (amended): for every rank matrix and every `k`, the ranker selects
for each row the `k` column indices with the largest values (every
unselected column's value is ≤ every selected one's), the selected pairs
of a row are in ascending rank order, but the triples are emitted
position-major rather than row by row: the output has length
`k * nrows`, and the triple at output position `p * nrows + r` is the
`p`-th (ascending) selected pair of row `r`. -/
theorem c2_rank_hits_amended (mat : List (List ℚ)) (k p r : ℕ)
    (hp : p < k) (hr : r < mat.length) (hk : k ≤ (mat.getD r []).length) :
    (rankHitsIdx mat k).length = k * mat.length ∧
    (takeLast k (argsort (mat.getD r []))).length = k ∧
    (rankHitsIdx mat k).getD (p * mat.length + r) (0, 0, 0) =
      (r, (mat.getD r []).getD ((takeLast k (argsort (mat.getD r []))).getD p 0) 0,
          (takeLast k (argsort (mat.getD r []))).getD p 0) ∧
    (takeLast k (argsort (mat.getD r []))).Nodup ∧
    (∀ j ∈ takeLast k (argsort (mat.getD r [])), j < (mat.getD r []).length) ∧
    ((takeLast k (argsort (mat.getD r []))).map
        (fun j => (mat.getD r []).getD j 0)).Sorted (· ≤ ·) ∧
    (∀ i < (mat.getD r []).length, i ∉ takeLast k (argsort (mat.getD r [])) →
      ∀ j ∈ takeLast k (argsort (mat.getD r [])),
        (mat.getD r []).getD i 0 ≤ (mat.getD r []).getD j 0) := by
  set row := mat.getD r [] with hrow
  set sel := takeLast k (argsort row) with hseldef
  have hsellen : sel.length = k := by
    simp only [hseldef, takeLast, List.length_drop, argsort_length]
    omega
  have hsubl : sel.Sublist (argsort row) := by
    simpa [hseldef, takeLast] using List.drop_sublist ((argsort row).length - k) (argsort row)
  have hnodupArg : (argsort row).Nodup :=
    ((argsort_perm row).symm).nodup (List.nodup_range _)
  have hnodup : sel.Nodup := hnodupArg.sublist hsubl
  have hmemlen : ∀ j ∈ sel, j < row.length := by
    intro j hj
    have : j ∈ argsort row := hsubl.subset hj
    have : j ∈ List.range row.length := ((argsort_perm row).mem_iff).mp this
    exact List.mem_range.mp this
  have hsorted : (sel.map fun j => row.getD j 0).Sorted (· ≤ ·) := by
    have h1 : List.Pairwise (fun i j => row.getD i 0 ≤ row.getD j 0) sel :=
      (argsort_sorted row).sublist hsubl
    exact h1.map _ (fun a b hab => hab)
  have hsplit : List.take ((argsort row).length - k) (argsort row) ++ sel = argsort row := by
    exact List.take_append_drop ((argsort row).length - k) (argsort row)
  have hlargest : ∀ i < row.length, i ∉ sel →
      ∀ j ∈ sel, row.getD i 0 ≤ row.getD j 0 := by
    intro i hi hinot j hj
    have hiarg : i ∈ argsort row :=
      ((argsort_perm row).mem_iff).mpr (List.mem_range.mpr hi)
    rw [← hsplit] at hiarg
    rcases List.mem_append.mp hiarg with hitake | hisel
    · have hpw := (argsort_sorted row)
      rw [← hsplit] at hpw
      exact ((List.pairwise_append.mp hpw).2.2) i hitake j hj
    · exact absurd hisel hinot
  have hlen : (rankHitsIdx mat k).length = k * mat.length := by
    simp [rankHitsIdx, List.length_flatMap, Function.comp_def, List.enum_length]
  refine ⟨hlen, hsellen, ?_, hnodup, hmemlen, hsorted, hlargest⟩
  have hp' : p < (List.range k).length := by simpa using hp
  rw [rankHitsIdx,
    getD_flatMap_block (List.range k) _ mat.length
      (fun a _ => by simp [List.enum_length]) (0, 0, 0) 0 p r hp'
      (by exact hr),
    List.getD_eq_getElem _ _ hp', List.getElem_range]
  rw [List.getD_eq_getElem _ _ (by simpa [List.enum_length] using hr)]
  rw [List.getElem_map, List.getElem_enum]
  have hmatr : mat[r] = row := by
    rw [hrow, List.getD_eq_getElem mat [] hr]
  have htop : (topAsc row k).getD p (0, 0) = (sel.getD p 0, row.getD (sel.getD p 0) 0) := by
    have hp2 : p < sel.length := by omega
    have hp3 : p < ((sel.map fun j => (j, row.getD j 0))).length := by
      simpa using hp2
    rw [topAsc, ← hseldef, List.getD_eq_getElem _ _ hp3, List.getElem_map,
      List.getD_eq_getElem _ _ hp2]
  rw [hmatr, htop]

/-- Modelled from the spec: `OneHotExpander.onehot` (§4.2; imported by
`test_multimodal.py` but missing from `multimodal.py` in the tree).
Given a microbe count matrix `M` (samples × microbes, natural counts)
and a metabolite proportion matrix `P` with one row per sample, each
cell `(s, j)` of `M` with count `c` contributes `c` occurrences, in
(sample, microbe index, replicate) order: index `j` to `otuHits` and a
copy of row `P[s]` to `msHits`. -/
def onehot (M : List (List ℕ)) (P : List (List ℚ)) : List ℕ × List (List ℚ) :=
  ((M.zip P).flatMap fun rp => rp.1.enum.flatMap fun jc => List.replicate jc.2 jc.1,
   (M.zip P).flatMap fun rp => rp.1.enum.flatMap fun jc => List.replicate jc.2 rp.2)

/-- Sample index of each occurrence produced by `onehot`: cell `(s, j)`
of the count matrix with count `c` contributes `c` copies of `s`, in the
same (sample, microbe index, replicate) order as `onehot`. -/
def sampleIds (M : List (List ℕ)) : List ℕ :=
  M.enum.flatMap fun sr => sr.2.enum.flatMap fun jc => List.replicate jc.2 sr.1

theorem length_enumFrom_flatMap_replicate {β : Type} (f : ℕ × ℕ → β) :
    ∀ (row : List ℕ) (n : ℕ),
      ((List.enumFrom n row).flatMap fun jc => List.replicate jc.2 (f jc)).length
        = row.sum := by
  intro row
  induction row with
  | nil => intro n; rfl
  | cons c row ih =>
    intro n
    rw [List.enumFrom_cons, List.flatMap_cons, List.length_append,
      List.length_replicate, List.sum_cons, ih]

theorem zip_flatMap_eq_enumFrom_flatMap {γ : Type} (f : List ℕ → List ℚ → List γ) :
    ∀ (Ms : List (List ℕ)) (Pfull : List (List ℚ)) (n : ℕ),
      Ms.length = (Pfull.drop n).length →
      ((Ms.zip (Pfull.drop n)).flatMap fun rp => f rp.1 rp.2) =
        (List.enumFrom n Ms).flatMap fun sr => f sr.2 (Pfull.getD sr.1 []) := by
  intro Ms
  induction Ms with
  | nil => intro Pfull n _; rfl
  | cons r Ms ih =>
    intro Pfull n h
    cases hd : Pfull.drop n with
    | nil => rw [hd] at h; simp at h
    | cons p rest =>
      rw [hd] at h
      rw [List.zip_cons_cons, List.flatMap_cons, List.enumFrom_cons,
        List.flatMap_cons]
      have hget : Pfull.getD n [] = p := by
        rw [List.getD_eq_getElem?_getD]
        have h0 : (Pfull.drop n)[0]? = Pfull[n + 0]? := List.getElem?_drop Pfull n 0
        rw [hd] at h0
        have : Pfull[n]? = some p := by simpa using h0.symm
        rw [this]
        rfl
      have hrest : Pfull.drop (n + 1) = rest := by
        rw [← List.drop_drop, hd, List.drop_one, List.tail_cons]
      have hih := ih Pfull (n + 1) (by rw [hrest]; simpa using h)
      rw [hrest] at hih
      rw [hget, hih]

/-- C3: for every microbe count matrix `M` (natural counts, one row per
sample) and metabolite proportion matrix `P` with the same number of
rows, each row closed (summing to 1), `onehot M P` returns `otuHits` of
length `sum(M)`, `msHits` with exactly that many rows, row `i` of
`msHits` equal to the full proportion row of the sample that produced
occurrence `i`, and every row of `msHits` summing to 1. -/
theorem c3_onehot_spec (M : List (List ℕ)) (P : List (List ℚ))
    (hlen : M.length = P.length) (hclosed : ∀ p ∈ P, p.sum = 1) :
    (onehot M P).1.length = (M.map List.sum).sum ∧
    (onehot M P).2.length = (onehot M P).1.length ∧
    (onehot M P).2 = (sampleIds M).map (fun s => P.getD s []) ∧
    ∀ q ∈ (onehot M P).2, List.sum q = 1 := by
  have hfst : List.map Prod.fst (M.zip P) = M := List.map_fst_zip M P (le_of_eq hlen)
  have hblock : ∀ {β : Type} (g : List ℚ → ℕ × ℕ → β),
      ∀ rp : List ℕ × List ℚ,
        ((rp.1.enum.flatMap fun jc => List.replicate jc.2 (g rp.2 jc)).length)
          = rp.1.sum := by
    intro β g rp
    exact length_enumFrom_flatMap_replicate (g rp.2) rp.1 0
  have hlen1 : (onehot M P).1.length = (M.map List.sum).sum := by
    show ((M.zip P).flatMap fun rp =>
      rp.1.enum.flatMap fun jc => List.replicate jc.2 jc.1).length = _
    rw [List.length_flatMap]
    have h2 : List.map
        (List.length ∘ fun rp : List ℕ × List ℚ =>
          rp.1.enum.flatMap fun jc => List.replicate jc.2 jc.1) (M.zip P)
        = List.map (List.sum ∘ Prod.fst) (M.zip P) := by
      refine List.map_congr_left fun rp _ => ?_
      exact hblock (fun _ jc => jc.1) rp
    rw [h2, ← List.map_map, hfst]
  have hlen2 : (onehot M P).2.length = (onehot M P).1.length := by
    show ((M.zip P).flatMap fun rp =>
      rp.1.enum.flatMap fun jc => List.replicate jc.2 rp.2).length = _
    rw [hlen1, List.length_flatMap]
    have h2 : List.map
        (List.length ∘ fun rp : List ℕ × List ℚ =>
          rp.1.enum.flatMap fun jc => List.replicate jc.2 rp.2) (M.zip P)
        = List.map (List.sum ∘ Prod.fst) (M.zip P) := by
      refine List.map_congr_left fun rp _ => ?_
      exact hblock (fun q _ => q) rp
    rw [h2, ← List.map_map, hfst]
  have h3 : (onehot M P).2 = (sampleIds M).map (fun s => P.getD s []) := by
    show ((M.zip P).flatMap fun rp =>
      rp.1.enum.flatMap fun jc => List.replicate jc.2 rp.2) = _
    have hmain := zip_flatMap_eq_enumFrom_flatMap
      (fun row q => row.enum.flatMap fun jc => List.replicate jc.2 q) M P 0
      (by simpa using hlen)
    simp only [List.drop_zero] at hmain
    rw [hmain, sampleIds, List.map_flatMap]
    have henum : M.enum = List.enumFrom 0 M := rfl
    rw [henum]
    congr 1
    funext sr
    simp [List.map_flatMap, List.map_replicate]
  refine ⟨hlen1, hlen2, h3, ?_⟩
  intro q hq
  simp only [onehot, List.mem_flatMap] at hq
  obtain ⟨rp, hrp, hq2⟩ := hq
  obtain ⟨jc, _, hq3⟩ := hq2
  have hqe : q = rp.2 := List.eq_of_mem_replicate hq3
  have : rp.2 ∈ P := (List.of_mem_zip hrp).2
  rw [hqe]
  exact hclosed rp.2 this

/-- C2 witness: the amended top-k ranker theorem instantiated on the §8
oracle matrix with `k = 2`, `p = 1`, `r = 2`. -/
theorem c2_rank_hits_amended_witness :
    (1 : ℕ) < 2 ∧ (2 : ℕ) < 3 ∧
    2 ≤ (([[1, 4, 1, 5, 7], [2, 6, 9, 2, 8], [2, 2, 6, 8, 4]] :
        List (List ℚ)).getD 2 []).length ∧
    (rankHitsIdx [[1, 4, 1, 5, 7], [2, 6, 9, 2, 8], [2, 2, 6, 8, 4]] 2).length =
      2 * ([[1, 4, 1, 5, 7], [2, 6, 9, 2, 8], [2, 2, 6, 8, 4]] :
        List (List ℚ)).length :=
  ⟨by decide, by decide, by decide,
    (c2_rank_hits_amended [[1, 4, 1, 5, 7], [2, 6, 9, 2, 8], [2, 2, 6, 8, 4]] 2 1 2
      (by decide) (by decide) (by decide)).1⟩

/-- C3 witness: the `onehot` theorem instantiated on a concrete 2×2
count matrix and closed 2×2 proportion matrix. -/
theorem c3_onehot_spec_witness :
    ([[2, 0], [0, 1]] : List (List ℕ)).length =
      ([[1, 0], [0, 1]] : List (List ℚ)).length ∧
    (∀ p ∈ ([[1, 0], [0, 1]] : List (List ℚ)), p.sum = 1) ∧
    (onehot [[2, 0], [0, 1]] [[1, 0], [0, 1]]).1.length =
      (([[2, 0], [0, 1]] : List (List ℕ)).map List.sum).sum :=
  ⟨by decide, by simp,
    (c3_onehot_spec [[2, 0], [0, 1]] [[1, 0], [0, 1]]
      (by decide) (by simp)).1⟩

/-- Modelled from the spec: the per-row top-N neighbour set of the
CrossValidator retrieval scoring (§4.5 step 6; `cross_validation` is
imported by `test_multimodal.py` but missing from `multimodal.py` in the
tree): the set of column indices of the `N` largest entries of a score
row, selected by the same stable top-k rule as the ranker. -/
def topIdx (row : List ℚ) (N : ℕ) : Finset ℕ :=
  (takeLast N (argsort row)).toFinset

/-- Retrieval metric report of the CrossValidator (§3 MetricReport,
restricted to the retrieval fields the oracle `test_cross_validation`
checks). -/
structure MetricReport where
  TP : ℕ
  FP : ℕ
  FN : ℕ
  TN : ℕ
  precision : ℚ
  «recall» : ℚ
  f1_score : ℚ
  meanRK : ℚ

/-- Modelled from the spec: `cross_validation` retrieval scoring (§4.5
step 6) over a predicted and a true score matrix with `d` destination
columns.  Each (source row, destination column) pair is classified
against the row's top-N predicted and top-N true neighbour sets and the
four counts are summed over rows.  `precision = TP/(TP+FP)` and
`f1_score` the harmonic mean follow §4.5 step 6; the `recall` (and hence
`meanRK`) denominator is NOT the spec's `TP+FN` but the total number of
classified pairs `TP+FP+FN+TN` (= rows × d), the unique simple reading
pinned by the frozen oracle `test_cross_validation`
(test_multimodal.py lines 222–231): there `TP = 6940`, `FN = 3060`, yet
`recall = 0.347 = 6940/20000`, while `TP/(TP+FN)` would be `0.694`.
`meanRK` duplicates `recall`, as the oracle observes. -/
def cross_validation (pred truth : List (List ℚ)) (N d : ℕ) : MetricReport :=
  let pairs := pred.zip truth
  let tp := (pairs.map fun rt =>
    ((Finset.range d).filter fun c => c ∈ topIdx rt.1 N ∧ c ∈ topIdx rt.2 N).card).sum
  let fp := (pairs.map fun rt =>
    ((Finset.range d).filter fun c => c ∈ topIdx rt.1 N ∧ c ∉ topIdx rt.2 N).card).sum
  let fn := (pairs.map fun rt =>
    ((Finset.range d).filter fun c => c ∉ topIdx rt.1 N ∧ c ∈ topIdx rt.2 N).card).sum
  let tn := (pairs.map fun rt =>
    ((Finset.range d).filter fun c => c ∉ topIdx rt.1 N ∧ c ∉ topIdx rt.2 N).card).sum
  let prec := (tp : ℚ) / ((tp : ℚ) + (fp : ℚ))
  let rcl := (tp : ℚ) / ((tp : ℚ) + (fp : ℚ) + (fn : ℚ) + (tn : ℚ))
  ⟨tp, fp, fn, tn, prec, rcl, 2 * prec * rcl / (prec + rcl), rcl⟩

/-- The cross-validation metric report frozen by the `src` test oracle
(`test_cross_validation`, test_multimodal.py lines 222–231):
FN 3060, FP 3060, TN 6940, TP 6940, f1_score 0.462667 (as rounded in the
test; the exact harmonic mean of 0.694 and 0.347 is 0.462666...), meanRK
0.347, precision 0.694, recall 0.347. -/
def oracleReport : MetricReport :=
  ⟨6940, 3060, 3060, 6940, 694 / 1000, 347 / 1000, 462667 / 1000000, 347 / 1000⟩

theorem topIdx_subset_range (row : List ℚ) (N : ℕ) :
    topIdx row N ⊆ Finset.range row.length := by
  intro j hj
  rw [topIdx, List.mem_toFinset] at hj
  have h1 : j ∈ argsort row := (List.drop_sublist _ _).subset hj
  have h2 : j ∈ List.range row.length := ((argsort_perm row).mem_iff).mp h1
  exact Finset.mem_range.mpr (List.mem_range.mp h2)

/-- C4 counterexample: the frozen program oracle of
`test_cross_validation` refutes `recall = TP/(TP+FN)`: it pins
`TP = 6940`, `FN = 3060` and `recall = 0.347`, while `TP/(TP+FN)` is
`0.694`.  (Under the claim's formulas the equal-size top-N sets would
even force `precision = recall`, against the pinned 0.694 vs 0.347.)
The further conjuncts record the replacement the same oracle supports:
`recall = TP/(TP+FP+FN+TN)`, `precision = TP/(TP+FP)` and
`meanRK = recall` all hold of the pinned report. -/
theorem c4_cross_validation_recall_counterexample :
    oracleReport.«recall» ≠
      (oracleReport.TP : ℚ) / ((oracleReport.TP : ℚ) + (oracleReport.FN : ℚ)) ∧
    oracleReport.«recall» =
      (oracleReport.TP : ℚ) / ((oracleReport.TP : ℚ) + (oracleReport.FP : ℚ) +
        (oracleReport.FN : ℚ) + (oracleReport.TN : ℚ)) ∧
    oracleReport.precision =
      (oracleReport.TP : ℚ) / ((oracleReport.TP : ℚ) + (oracleReport.FP : ℚ)) ∧
    oracleReport.meanRK = oracleReport.«recall» := by
  refine ⟨?_, ?_, ?_, rfl⟩
  · norm_num [oracleReport]
  · norm_num [oracleReport]
  · norm_num [oracleReport]

/-- C4 (amended): in the CrossValidator retrieval scoring, `TP` is the
summed size of the intersection of the per-row top-N predicted and top-N
true neighbour sets, `FP` the predicted-but-not-true count, `FN` the
true-but-not-predicted count, `TN` the complement count,
`precision = TP/(TP+FP)`, `f1_score` the harmonic mean of precision and
recall, and `meanRK` numerically identical to `recall`; but
`recall = TP/(TP+FP+FN+TN)` — the total number of classified pairs — as
the frozen oracle pins, not the claimed `TP/(TP+FN)`. -/
theorem c4_cross_validation_amended (pred truth : List (List ℚ)) (N d : ℕ)
    (hp : ∀ row ∈ pred, row.length = d) (ht : ∀ row ∈ truth, row.length = d) :
    (cross_validation pred truth N d).TP =
      ((pred.zip truth).map fun rt => ((topIdx rt.1 N) ∩ (topIdx rt.2 N)).card).sum ∧
    (cross_validation pred truth N d).FP =
      ((pred.zip truth).map fun rt => ((topIdx rt.1 N) \ (topIdx rt.2 N)).card).sum ∧
    (cross_validation pred truth N d).FN =
      ((pred.zip truth).map fun rt => ((topIdx rt.2 N) \ (topIdx rt.1 N)).card).sum ∧
    (cross_validation pred truth N d).TN =
      ((pred.zip truth).map fun rt =>
        d - ((topIdx rt.1 N) ∪ (topIdx rt.2 N)).card).sum ∧
    (cross_validation pred truth N d).precision =
      ((cross_validation pred truth N d).TP : ℚ) /
        (((cross_validation pred truth N d).TP : ℚ) +
          ((cross_validation pred truth N d).FP : ℚ)) ∧
    (cross_validation pred truth N d).«recall» =
      ((cross_validation pred truth N d).TP : ℚ) /
        (((cross_validation pred truth N d).TP : ℚ) +
          ((cross_validation pred truth N d).FP : ℚ) +
          ((cross_validation pred truth N d).FN : ℚ) +
          ((cross_validation pred truth N d).TN : ℚ)) ∧
    ((cross_validation pred truth N d).precision ≠ 0 →
      (cross_validation pred truth N d).«recall» ≠ 0 →
      (cross_validation pred truth N d).f1_score =
        2 / (1 / (cross_validation pred truth N d).precision +
          1 / (cross_validation pred truth N d).«recall»)) ∧
    (cross_validation pred truth N d).meanRK = (cross_validation pred truth N d).«recall» := by
  have hsub : ∀ rt ∈ pred.zip truth,
      topIdx rt.1 N ⊆ Finset.range d ∧ topIdx rt.2 N ⊆ Finset.range d := by
    intro rt hrt
    obtain ⟨h1, h2⟩ := List.of_mem_zip hrt
    constructor
    · rw [← hp rt.1 h1]; exact topIdx_subset_range rt.1 N
    · rw [← ht rt.2 h2]; exact topIdx_subset_range rt.2 N
  have e1 : ∀ rt ∈ pred.zip truth,
      ((Finset.range d).filter fun c => c ∈ topIdx rt.1 N ∧ c ∈ topIdx rt.2 N).card
        = ((topIdx rt.1 N) ∩ (topIdx rt.2 N)).card := by
    intro rt hrt
    congr 1
    ext c
    simp only [Finset.mem_filter, Finset.mem_inter]
    exact ⟨fun h => h.2, fun h => ⟨(hsub rt hrt).1 h.1, h⟩⟩
  have e2 : ∀ rt ∈ pred.zip truth,
      ((Finset.range d).filter fun c => c ∈ topIdx rt.1 N ∧ c ∉ topIdx rt.2 N).card
        = ((topIdx rt.1 N) \ (topIdx rt.2 N)).card := by
    intro rt hrt
    congr 1
    ext c
    simp only [Finset.mem_filter, Finset.mem_sdiff]
    exact ⟨fun h => h.2, fun h => ⟨(hsub rt hrt).1 h.1, h⟩⟩
  have e3 : ∀ rt ∈ pred.zip truth,
      ((Finset.range d).filter fun c => c ∉ topIdx rt.1 N ∧ c ∈ topIdx rt.2 N).card
        = ((topIdx rt.2 N) \ (topIdx rt.1 N)).card := by
    intro rt hrt
    congr 1
    ext c
    simp only [Finset.mem_filter, Finset.mem_sdiff]
    exact ⟨fun h => ⟨h.2.2, h.2.1⟩, fun h => ⟨(hsub rt hrt).2 h.1, h.2, h.1⟩⟩
  have e4 : ∀ rt ∈ pred.zip truth,
      ((Finset.range d).filter fun c => c ∉ topIdx rt.1 N ∧ c ∉ topIdx rt.2 N).card
        = d - ((topIdx rt.1 N) ∪ (topIdx rt.2 N)).card := by
    intro rt hrt
    have hun : (topIdx rt.1 N) ∪ (topIdx rt.2 N) ⊆ Finset.range d :=
      Finset.union_subset (hsub rt hrt).1 (hsub rt hrt).2
    have hfl : ((Finset.range d).filter fun c => c ∉ topIdx rt.1 N ∧ c ∉ topIdx rt.2 N)
        = Finset.range d \ ((topIdx rt.1 N) ∪ (topIdx rt.2 N)) := by
      ext c
      simp only [Finset.mem_filter, Finset.mem_sdiff, Finset.mem_union]
      tauto
    rw [hfl, Finset.card_sdiff hun, Finset.card_range]
  refine ⟨?_, ?_, ?_, ?_, rfl, rfl, ?_, rfl⟩
  · exact congrArg List.sum (List.map_congr_left e1)
  · exact congrArg List.sum (List.map_congr_left e2)
  · exact congrArg List.sum (List.map_congr_left e3)
  · exact congrArg List.sum (List.map_congr_left e4)
  · intro hne1 hne2
    show 2 * (cross_validation pred truth N d).precision *
        (cross_validation pred truth N d).«recall» /
        ((cross_validation pred truth N d).precision +
          (cross_validation pred truth N d).«recall») = _
    field_simp
    ring

/-- C4 witness: the amended retrieval-scoring theorem instantiated on
concrete 2×2 predicted and true score matrices with `N = 1`, `d = 2`. -/
theorem c4_cross_validation_amended_witness :
    (∀ row ∈ ([[1, 2], [3, 1]] : List (List ℚ)), row.length = 2) ∧
    (∀ row ∈ ([[2, 1], [1, 3]] : List (List ℚ)), row.length = 2) ∧
    (cross_validation [[1, 2], [3, 1]] [[2, 1], [1, 3]] 1 2).meanRK =
      (cross_validation [[1, 2], [3, 1]] [[2, 1], [1, 3]] 1 2).«recall» :=
  ⟨by decide, by decide,
    (c4_cross_validation_amended [[1, 2], [3, 1]] [[2, 1], [1, 3]] 1 2
      (by decide) (by decide)).2.2.2.2.2.2.2⟩

/-- Broadcast addition of a row vector to every row of a matrix — the
numpy expression `A + b` for a 2-D `A` and 1-D `b`, as used at
multimodal.py lines 257 and 260. -/
def bcastAdd {m n : ℕ} {α : Type} [Add α] (A : Matrix (Fin m) (Fin n) α)
    (v : Fin n → α) : Matrix (Fin m) (Fin n) α :=
  Matrix.of fun i j => A i j + v j

/-- The pre-softmax affine chain inside `predict` of the `autoencoder`
command (multimodal.py lines 254–258):
`(((x @ U3.T + U2b) @ U2.T + V2b) @ V2.T + V1b) @ V1.T`, with the layer
weights in their keras shapes (`V1 : d2 × a`, `V2 : a × b`,
`U2 : b × c`, `U3 : c × d1`, biases matching). -/
def predictPre {s d1 d2 a b c : ℕ} {α : Type} [CommRing α]
    (V1 : Matrix (Fin d2) (Fin a) α) (V1b : Fin a → α)
    (V2 : Matrix (Fin a) (Fin b) α) (V2b : Fin b → α)
    (U2 : Matrix (Fin b) (Fin c) α) (U2b : Fin c → α)
    (U3 : Matrix (Fin c) (Fin d1) α)
    (x : Matrix (Fin s) (Fin d1) α) : Matrix (Fin s) (Fin d2) α :=
  bcastAdd (bcastAdd (bcastAdd (x * U3.transpose) U2b * U2.transpose) V2b
    * V2.transpose) V1b * V1.transpose

/-- Source `predict` (multimodal.py lines 254–258): the affine chain
followed by `softmax` (skbio `clr_inv`) applied row-wise; the row-wise
normalising function is a parameter `sm` so that the transcendental
softmax can be slotted in abstractly. -/
def predictWith {s d1 d2 a b c : ℕ} {α : Type} [CommRing α]
    (sm : (Fin d2 → α) → Fin d2 → α)
    (V1 : Matrix (Fin d2) (Fin a) α) (V1b : Fin a → α)
    (V2 : Matrix (Fin a) (Fin b) α) (V2b : Fin b → α)
    (U2 : Matrix (Fin b) (Fin c) α) (U2b : Fin c → α)
    (U3 : Matrix (Fin c) (Fin d1) α)
    (x : Matrix (Fin s) (Fin d1) α) : Matrix (Fin s) (Fin d2) α :=
  Matrix.of fun i => sm fun j => predictPre V1 V1b V2 V2b U2 U2b U3 x i j

/-- The collapsed rank matrix of the `autoencoder` command
(multimodal.py line 260):
`ranks = (((U3.T + U2b) @ U2.T + V2b) @ V2.T + V1b) @ V1.T`, where
`U3.T + U2b` is the numpy row-broadcast of the bias. -/
def ranksOf {d1 d2 a b c : ℕ} {α : Type} [CommRing α]
    (V1 : Matrix (Fin d2) (Fin a) α) (V1b : Fin a → α)
    (V2 : Matrix (Fin a) (Fin b) α) (V2b : Fin b → α)
    (U2 : Matrix (Fin b) (Fin c) α) (U2b : Fin c → α)
    (U3 : Matrix (Fin c) (Fin d1) α) : Matrix (Fin d1) (Fin d2) α :=
  bcastAdd (bcastAdd (bcastAdd U3.transpose U2b * U2.transpose) V2b
    * V2.transpose) V1b * V1.transpose

/-- Single-microbe indicator input: a 1 × d1 matrix that is 1 at column
`i` and 0 elsewhere (the basis vector `e_i` fed to `predict`). -/
def indicatorRow {d1 : ℕ} {α : Type} [Zero α] [One α] (i : Fin d1) :
    Matrix (Fin 1) (Fin d1) α :=
  Matrix.of fun _ k => if k = i then 1 else 0

theorem indicator_mul {d1 q : ℕ} {α : Type} [CommRing α]
    (M : Matrix (Fin d1) (Fin q) α) (i : Fin d1) :
    ∀ j, ((indicatorRow i : Matrix (Fin 1) (Fin d1) α) * M) 0 j = M i j := by
  intro j
  simp only [indicatorRow, Matrix.mul_apply, Matrix.of_apply, ite_mul, one_mul,
    zero_mul]
  rw [Finset.sum_ite_eq' Finset.univ i fun k => M k j]
  simp

theorem rowEq_mul {m m' n q : ℕ} {α : Type} [CommRing α]
    {A : Matrix (Fin m) (Fin n) α} {B : Matrix (Fin m') (Fin n) α}
    (M : Matrix (Fin n) (Fin q) α) {r : Fin m} {r' : Fin m'}
    (h : ∀ j, A r j = B r' j) : ∀ j, (A * M) r j = (B * M) r' j := by
  intro j
  simp only [Matrix.mul_apply]
  exact Finset.sum_congr rfl fun k _ => by rw [h k]

theorem rowEq_bcast {m m' n : ℕ} {α : Type} [CommRing α]
    {A : Matrix (Fin m) (Fin n) α} {B : Matrix (Fin m') (Fin n) α}
    (v : Fin n → α) {r : Fin m} {r' : Fin m'}
    (h : ∀ j, A r j = B r' j) :
    ∀ j, (bcastAdd A v) r j = (bcastAdd B v) r' j := by
  intro j
  simp only [bcastAdd, Matrix.of_apply, h j]

/-- C5: the collapsed rank matrix has shape (#source features) ×
(#destination features) — manifest in its type
`Matrix (Fin d1) (Fin d2)` — and for every source feature `i` its row
`i` equals the pre-softmax output of the forward transform applied to
the single-microbe indicator row `e_i`; consequently, for every row-wise
normaliser `sm` (softmax in the source),
`predict(e_i) = sm(ranks[i, :])`. -/
theorem c5_ranks_row_eq_indicator_predict {d1 d2 a b c : ℕ} {α : Type} [CommRing α]
    (V1 : Matrix (Fin d2) (Fin a) α) (V1b : Fin a → α)
    (V2 : Matrix (Fin a) (Fin b) α) (V2b : Fin b → α)
    (U2 : Matrix (Fin b) (Fin c) α) (U2b : Fin c → α)
    (U3 : Matrix (Fin c) (Fin d1) α) (i : Fin d1) :
    (∀ j, predictPre V1 V1b V2 V2b U2 U2b U3 (indicatorRow i) 0 j
        = ranksOf V1 V1b V2 V2b U2 U2b U3 i j) ∧
    ∀ sm : (Fin d2 → α) → Fin d2 → α, ∀ j,
      predictWith sm V1 V1b V2 V2b U2 U2b U3 (indicatorRow i) 0 j
        = sm (fun j2 => ranksOf V1 V1b V2 V2b U2 U2b U3 i j2) j := by
  have base := indicator_mul U3.transpose i
  have b1 := rowEq_bcast U2b base
  have m1 := rowEq_mul U2.transpose b1
  have b2 := rowEq_bcast V2b m1
  have m2 := rowEq_mul V2.transpose b2
  have b3 := rowEq_bcast V1b m2
  have m3 := rowEq_mul V1.transpose b3
  refine ⟨m3, fun sm j => ?_⟩
  have hfe : (fun j2 => predictPre V1 V1b V2 V2b U2 U2b U3 (indicatorRow i) 0 j2)
      = fun j2 => ranksOf V1 V1b V2 V2b U2 U2b U3 i j2 := funext m3
  show sm (fun j2 => predictPre V1 V1b V2 V2b U2 U2b U3 (indicatorRow i) 0 j2) j = _
  rw [hfe]

/-- Row-wise softmax with the entrywise exponential abstracted: skbio
`clr_inv` (imported as `softmax` at multimodal.py line 8) maps a row `z`
to `exp(z) / sum(exp(z))`; `E` stands for the entrywise exponential, of
which the statements use only strict positivity. -/
def softmaxWith {n : ℕ} {α : Type} [DivisionRing α] (E : α → α)
    (v : Fin n → α) : Fin n → α :=
  fun i => E (v i) / ∑ j, E (v j)

/-- C10: for every input matrix `x` over a linearly ordered field and
every strictly positive entrywise exponential `E`, each row of
`predict(x)` — the affine chain followed by the row-wise softmax — lies
on the probability simplex: all entries nonnegative and the row summing
to 1. -/
theorem c10_predict_rows_simplex {s d1 a b c m : ℕ} {α : Type}
    [LinearOrderedField α] (E : α → α) (hE : ∀ z, 0 < E z)
    (V1 : Matrix (Fin (m + 1)) (Fin a) α) (V1b : Fin a → α)
    (V2 : Matrix (Fin a) (Fin b) α) (V2b : Fin b → α)
    (U2 : Matrix (Fin b) (Fin c) α) (U2b : Fin c → α)
    (U3 : Matrix (Fin c) (Fin d1) α)
    (x : Matrix (Fin s) (Fin d1) α) (r : Fin s) :
    (∀ j, 0 ≤ predictWith (softmaxWith E) V1 V1b V2 V2b U2 U2b U3 x r j) ∧
    ∑ j, predictWith (softmaxWith E) V1 V1b V2 V2b U2 U2b U3 x r j = 1 := by
  have hpos : 0 < ∑ j, E (predictPre V1 V1b V2 V2b U2 U2b U3 x r j) :=
    Finset.sum_pos (fun j _ => hE _) Finset.univ_nonempty
  constructor
  · intro j
    show 0 ≤ softmaxWith E (fun j2 => predictPre V1 V1b V2 V2b U2 U2b U3 x r j2) j
    exact div_nonneg (le_of_lt (hE _)) (le_of_lt hpos)
  · show ∑ j, softmaxWith E (fun j2 => predictPre V1 V1b V2 V2b U2 U2b U3 x r j2) j = 1
    simp only [softmaxWith]
    rw [← Finset.sum_div]
    exact div_self (ne_of_gt hpos)

/-- C10 witness: the simplex theorem instantiated over `ℚ` with the
constant positive function in place of the exponential, 1-dimensional
zero weights and a zero input row. -/
theorem c10_predict_rows_simplex_witness :
    (∀ z : ℚ, 0 < (fun _ : ℚ => (1 : ℚ)) z) ∧
    ∑ j, predictWith (softmaxWith fun _ : ℚ => 1)
        (0 : Matrix (Fin 1) (Fin 1) ℚ) (0 : Fin 1 → ℚ)
        (0 : Matrix (Fin 1) (Fin 1) ℚ) (0 : Fin 1 → ℚ)
        (0 : Matrix (Fin 1) (Fin 1) ℚ) (0 : Fin 1 → ℚ)
        (0 : Matrix (Fin 1) (Fin 1) ℚ)
        (0 : Matrix (Fin 1) (Fin 1) ℚ) 0 j = 1 :=
  ⟨fun _ => one_pos,
    (c10_predict_rows_simplex (fun _ : ℚ => 1) (fun _ => one_pos)
      (0 : Matrix (Fin 1) (Fin 1) ℚ) (0 : Fin 1 → ℚ)
      (0 : Matrix (Fin 1) (Fin 1) ℚ) (0 : Fin 1 → ℚ)
      (0 : Matrix (Fin 1) (Fin 1) ℚ) (0 : Fin 1 → ℚ)
      (0 : Matrix (Fin 1) (Fin 1) ℚ)
      (0 : Matrix (Fin 1) (Fin 1) ℚ) 0).2⟩

theorem sum_map_eq_sum_range {β : Type} (f : β → ℚ) (dflt : β) :
    ∀ l : List β, (l.map f).sum = ∑ i ∈ Finset.range l.length, f (l.getD i dflt) := by
  intro l
  induction l with
  | nil => simp
  | cons a l ih =>
    rw [List.map_cons, List.sum_cons, ih, List.length_cons, Finset.sum_range_succ']
    simp [List.getD_cons_succ, List.getD_cons_zero, add_comm]

/-- The cross-validation mean absolute difference metric of the
`autoencoder` command (multimodal.py lines 266–267):
`mean_ms_diff = np.mean(np.sum(np.abs(pred_ms - metabolites), axis=1) * 0.5)`;
rows are paired positionally and the elementwise operations run over the
paired entries. -/
def mean_ms_diff (pred obs : List (List ℚ)) : ℚ :=
  (((pred.zip obs).map fun po =>
      ((po.1.zip po.2).map fun ab => |ab.1 - ab.2|).sum * (1 / 2)).sum)
    / (pred.zip obs).length

/-- C8: the mean absolute difference metric equals the mean over samples
of 0.5 times the sum over metabolites of the absolute difference between
the predicted and observed proportion rows — the averaged, halved
total-variation distance. -/
theorem c8_mean_ms_diff_spec (pred obs : List (List ℚ)) (d : ℕ)
    (hlen : obs.length = pred.length)
    (hp : ∀ row ∈ pred, row.length = d) (ho : ∀ row ∈ obs, row.length = d) :
    mean_ms_diff pred obs =
      (∑ i ∈ Finset.range pred.length, (1 / 2 : ℚ) *
        ∑ j ∈ Finset.range d,
          |(pred.getD i []).getD j 0 - (obs.getD i []).getD j 0|) / pred.length := by
  have hzl : (pred.zip obs).length = pred.length := by
    rw [List.length_zip, hlen, inf_idem]
  rw [mean_ms_diff, sum_map_eq_sum_range _ ([], []), hzl]
  congr 1
  apply Finset.sum_congr rfl
  intro i hi
  have hi1 : i < pred.length := Finset.mem_range.mp hi
  have hi2 : i < obs.length := by omega
  have hiz : i < (pred.zip obs).length := by omega
  have hpair : (pred.zip obs).getD i ([], []) = (pred.getD i [], obs.getD i []) := by
    rw [List.getD_eq_getElem _ _ hiz, List.getElem_zip,
      List.getD_eq_getElem pred [] hi1, List.getD_eq_getElem obs [] hi2]
  rw [hpair]
  have hpl : (pred.getD i []).length = d := by
    rw [List.getD_eq_getElem pred [] hi1]
    exact hp _ (List.getElem_mem hi1)
  have hol : (obs.getD i []).length = d := by
    rw [List.getD_eq_getElem obs [] hi2]
    exact ho _ (List.getElem_mem hi2)
  rw [sum_map_eq_sum_range _ ((0 : ℚ), (0 : ℚ))]
  have hzl2 : ((pred.getD i []).zip (obs.getD i [])).length = d := by
    rw [List.length_zip, hpl, hol, inf_idem]
  rw [hzl2, mul_comm]
  congr 1
  apply Finset.sum_congr rfl
  intro j hj
  have hj1 : j < d := Finset.mem_range.mp hj
  rw [List.getD_eq_getElem _ _ (by omega : j < ((pred.getD i []).zip (obs.getD i [])).length),
    List.getElem_zip,
    List.getD_eq_getElem _ _ (by omega : j < (pred.getD i []).length),
    List.getD_eq_getElem _ _ (by omega : j < (obs.getD i []).length)]

/-- C8 witness: the mean absolute difference theorem instantiated on
concrete 1×2 predicted and observed matrices. -/
theorem c8_mean_ms_diff_spec_witness :
    ([[0, 2]] : List (List ℚ)).length = ([[1, 2]] : List (List ℚ)).length ∧
    (∀ row ∈ ([[1, 2]] : List (List ℚ)), row.length = 2) ∧
    (∀ row ∈ ([[0, 2]] : List (List ℚ)), row.length = 2) ∧
    mean_ms_diff [[1, 2]] [[0, 2]] =
      (∑ i ∈ Finset.range ([[1, 2]] : List (List ℚ)).length, (1 / 2 : ℚ) *
        ∑ j ∈ Finset.range 2,
          |(([[1, 2]] : List (List ℚ)).getD i []).getD j 0 -
            (([[0, 2]] : List (List ℚ)).getD i []).getD j 0|) /
        ([[1, 2]] : List (List ℚ)).length :=
  ⟨by decide, by decide, by decide,
    c8_mean_ms_diff_spec [[1, 2]] [[0, 2]] 2 (by decide) (by decide) (by decide)⟩

/-- skbio `closure` (imported at multimodal.py line 7, applied at lines
198–199 and 238–239): raises `ValueError("Cannot have negative
proportions")` on a negative entry, raises `ValueError("Input matrix
cannot have rows with all zeros")` when some row is all zeros, and
otherwise divides every row by its row sum.  The two guards model
skbio's `np.any(mat < 0)` and `np.all(mat == 0, axis=1).sum() > 0`
checks, in source order. -/
def closure (mat : List (List ℚ)) : Except String (List (List ℚ)) :=
  if mat.any fun row => row.any fun x => x < 0 then
    Except.error "Cannot have negative proportions"
  else if mat.any fun row => row.all fun x => x = 0 then
    Except.error "Input matrix cannot have rows with all zeros"
  else
    Except.ok (mat.map fun row => row.map fun x => x / row.sum)

theorem sum_map_div (row : List ℚ) (s : ℚ) :
    (row.map fun x => x / s).sum = row.sum / s := by
  induction row with
  | nil => simp
  | cons a l ih => simp [ih, add_div]

theorem all_zero_of_sum_zero (row : List ℚ) (h : ∀ x ∈ row, 0 ≤ x)
    (hs : row.sum = 0) : ∀ x ∈ row, x = 0 := by
  induction row with
  | nil => simp
  | cons a l ih =>
    rw [List.sum_cons] at hs
    have ha : 0 ≤ a := h a (List.mem_cons_self a l)
    have hl : 0 ≤ l.sum := List.sum_nonneg fun x hx => h x (List.mem_cons_of_mem a hx)
    have ha0 : a = 0 := by linarith
    have hls : l.sum = 0 := by linarith
    intro x hx
    rcases List.mem_cons.mp hx with rfl | hx2
    · exact ha0
    · exact ih (fun y hy => h y (List.mem_cons_of_mem a hy)) hls x hx2

/-- C9: for every nonnegative matrix (the data model's invariant — with
a negative entry the negative-proportions `ValueError` preempts),
`closure` divides every row by that row's sum, normalising each row to
sum 1, when no row sums to zero; and it fails whenever some row sums to
zero — a nonnegative zero-sum row is exactly an all-zero row, so skbio's
zero-row `ValueError` fires, the concrete realisation of the spec's
abstract `DegenerateRowError` kind (§7). -/
theorem c9_closure_spec (mat : List (List ℚ))
    (h : ∀ row ∈ mat, ∀ x ∈ row, 0 ≤ x) :
    ((∀ row ∈ mat, row.sum ≠ 0) →
      closure mat = Except.ok (mat.map fun row => row.map fun x => x / row.sum) ∧
      ∀ row ∈ mat, (row.map fun x => x / row.sum).sum = 1) ∧
    ((∃ row ∈ mat, row.sum = 0) →
      closure mat = Except.error "Input matrix cannot have rows with all zeros") := by
  have hneg : ¬(mat.any fun row => row.any fun x => x < 0) = true := by
    simp only [List.any_eq_true, decide_eq_true_eq]
    push_neg
    intro row hrow x hx
    exact h row hrow x hx
  constructor
  · intro hnz
    have hzero : ¬(mat.any fun row => row.all fun x => x = 0) = true := by
      simp only [List.any_eq_true, List.all_eq_true, decide_eq_true_eq]
      push_neg
      intro row hrow
      by_contra hcon
      push_neg at hcon
      exact hnz row hrow (List.sum_eq_zero hcon)
    rw [closure, if_neg hneg, if_neg hzero]
    exact ⟨rfl, fun row hrow => by rw [sum_map_div, div_self (hnz row hrow)]⟩
  · rintro ⟨row, hrow, hsum⟩
    have hall : ∀ x ∈ row, x = 0 := all_zero_of_sum_zero row (h row hrow) hsum
    have hz : (mat.any fun row => row.all fun x => x = 0) = true := by
      simp only [List.any_eq_true, List.all_eq_true, decide_eq_true_eq]
      exact ⟨row, hrow, hall⟩
    rw [closure, if_neg hneg, if_pos hz]

/-- C9 witness: the closure theorem instantiated on a concrete
nonnegative matrix whose first row sums to zero, exhibiting the
zero-row failure. -/
theorem c9_closure_spec_witness :
    (∀ row ∈ ([[0, 0], [1, 3]] : List (List ℚ)), ∀ x ∈ row, 0 ≤ x) ∧
    closure [[0, 0], [1, 3]] =
      Except.error "Input matrix cannot have rows with all zeros" :=
  ⟨by decide,
    (c9_closure_spec [[0, 0], [1, 3]] (by decide)).2 ⟨[0, 0], by decide, by simp⟩⟩

/-- scipy `rel_entr` (the elementwise kernel of `scipy.stats.entropy`):
`p * log(p / q)`, with `p = 0` contributing 0; the logarithm `L` is
abstracted, the statements constraining it only at the points used. -/
def relEntr (L : ℚ → ℚ) (p q : ℚ) : ℚ :=
  if p = 0 then 0 else p * L (p / q)

/-- scipy `stats.entropy(pk, qk)` as called at multimodal.py line 275:
with 2-D inputs it reduces along axis 0 — for every one of the `d`
columns it normalises the observed and the predicted column by the
column sum and sums `rel_entr` down the column — returning one KL value
per metabolite column, not per sample. -/
def scipyEntropy (L : ℚ → ℚ) (pk qk : List (List ℚ)) (d : ℕ) : List ℚ :=
  (List.range d).map fun j =>
    let pcol := pk.map fun row => row.getD j 0
    let qcol := qk.map fun row => row.getD j 0
    (((pcol.map fun x => x / pcol.sum).zip (qcol.map fun x => x / qcol.sum)).map
      fun pq => relEntr L pq.1 pq.2).sum

/-- `ms_kl = np.mean(entropy(metabolites, pred_ms))` (multimodal.py
line 275): the mean of the per-column KL values. -/
def ms_kl (L : ℚ → ℚ) (obs pred : List (List ℚ)) (d : ℕ) : ℚ :=
  (scipyEntropy L obs pred d).sum / (scipyEntropy L obs pred d).length

/-- The metric C6 describes: the mean over samples of the KL divergence
between each observed metabolite row and the corresponding predicted
row. -/
def perSampleMeanKl (L : ℚ → ℚ) (obs pred : List (List ℚ)) : ℚ :=
  (((obs.zip pred).map fun op =>
    ((op.1.zip op.2).map fun pq => relEntr L pq.1 pq.2).sum).sum) / obs.length

/-- C6: the code's KL metric reduces along columns, not samples.  On a
test set with the single observed row `[1/2, 1/2]` and predicted row
`[1/4, 3/4]`, every column of a one-row matrix normalises to `[1]`, so
the code returns 0 for every logarithm with `L 1 = 0`, while the claimed
mean per-sample row-wise KL equals `(L 2 + L (2/3)) / 2` — nonzero
whenever `L 2 + L (2/3) ≠ 0`, as holds for the real logarithm, where the
value is `log(4/3)/2 > 0`. -/
theorem c6_ms_kl_axis_bug (L : ℚ → ℚ) (hL1 : L 1 = 0)
    (hL : L 2 + L (2 / 3) ≠ 0) :
    ms_kl L [[1 / 2, 1 / 2]] [[1 / 4, 3 / 4]] 2 = 0 ∧
    perSampleMeanKl L [[1 / 2, 1 / 2]] [[1 / 4, 3 / 4]] = (L 2 + L (2 / 3)) / 2 ∧
    perSampleMeanKl L [[1 / 2, 1 / 2]] [[1 / 4, 3 / 4]] ≠
      ms_kl L [[1 / 2, 1 / 2]] [[1 / 4, 3 / 4]] 2 := by
  have h1 : ms_kl L [[1 / 2, 1 / 2]] [[1 / 4, 3 / 4]] 2 = 0 := by
    norm_num [ms_kl, scipyEntropy, relEntr, List.range_succ, hL1]
  have h2 : perSampleMeanKl L [[1 / 2, 1 / 2]] [[1 / 4, 3 / 4]] =
      (L 2 + L (2 / 3)) / 2 := by
    norm_num [perSampleMeanKl, relEntr]
    ring
  refine ⟨h1, h2, ?_⟩
  rw [h1, h2]
  exact div_ne_zero hL two_ne_zero

/-- C6 witness: the KL axis theorem instantiated with a concrete
logarithm-like function satisfying the two sign facts used
(`log 1 = 0` and `log 2 + log(2/3) = log(4/3) ≠ 0`). -/
theorem c6_ms_kl_axis_bug_witness :
    ((fun x : ℚ => if x = 2 then (1 : ℚ) else 0) 1 = 0) ∧
    ((fun x : ℚ => if x = 2 then (1 : ℚ) else 0) 2 +
      (fun x : ℚ => if x = 2 then (1 : ℚ) else 0) (2 / 3) ≠ 0) ∧
    ms_kl (fun x : ℚ => if x = 2 then (1 : ℚ) else 0)
      [[1 / 2, 1 / 2]] [[1 / 4, 3 / 4]] 2 = 0 :=
  ⟨by norm_num, by norm_num,
    (c6_ms_kl_axis_bug (fun x : ℚ => if x = 2 then (1 : ℚ) else 0)
      (by norm_num) (by norm_num)).1⟩

/-- The per-sample top-k restricted Spearman step of the cross
validation (multimodal.py lines 269–274): for each test sample take the
top-k predicted metabolite indices (`np.argsort(pred_ms[i, :])[-k:]`),
call `spearmanr` on the predicted and observed values at those indices —
scipy returns a (correlation, p-value) pair and the code appends the
whole pair to the list `ms_r` — and finally `ms_r = np.mean(ms_r)`
averages every entry of the resulting n × 2 array, i.e. correlations and
p-values together.  `sp` abstracts `scipy.stats.spearmanr`. -/
def ms_r_code (sp : List ℚ → List ℚ → ℚ × ℚ) (pred obs : List (List ℚ))
    (k : ℕ) : ℚ :=
  let results := (pred.zip obs).map fun po =>
    let idx := takeLast k (argsort po.1)
    sp (idx.map fun j => po.1.getD j 0) (idx.map fun j => po.2.getD j 0)
  ((results.map fun t => t.1 + t.2).sum) / (2 * results.length)

/-- The metric C7 describes: the mean over samples of the Spearman
correlation coefficient alone, computed on the same top-k restricted
values. -/
def ms_r_claim (sp : List ℚ → List ℚ → ℚ × ℚ) (pred obs : List (List ℚ))
    (k : ℕ) : ℚ :=
  let results := (pred.zip obs).map fun po =>
    let idx := takeLast k (argsort po.1)
    sp (idx.map fun j => po.1.getD j 0) (idx.map fun j => po.2.getD j 0)
  ((results.map fun t => t.1).sum) / results.length

/-- C7: the code averages the full `spearmanr` result pairs, mixing
p-values into the mean.  On a single test sample whose predicted and
observed top-k values are both strictly increasing — where scipy returns
exactly (ρ, p) = (1.0, 0.0) — the code yields 1/2 while the claimed
average of correlation coefficients is 1. -/
theorem c7_ms_spearman_tuple_bug (sp : List ℚ → List ℚ → ℚ × ℚ)
    (hsp : sp [1, 2, 4] [1, 3, 9] = (1, 0)) :
    ms_r_code sp [[1, 2, 4]] [[1, 3, 9]] 3 = 1 / 2 ∧
    ms_r_claim sp [[1, 2, 4]] [[1, 3, 9]] 3 = 1 ∧
    ms_r_code sp [[1, 2, 4]] [[1, 3, 9]] 3 ≠
      ms_r_claim sp [[1, 2, 4]] [[1, 3, 9]] 3 := by
  have h1 : (takeLast 3 (argsort ([1, 2, 4] : List ℚ))).map
      (fun j => ([1, 2, 4] : List ℚ).getD j 0) = ([1, 2, 4] : List ℚ) := by decide
  have h2 : (takeLast 3 (argsort ([1, 2, 4] : List ℚ))).map
      (fun j => ([1, 3, 9] : List ℚ).getD j 0) = ([1, 3, 9] : List ℚ) := by decide
  have hc : ms_r_code sp [[1, 2, 4]] [[1, 3, 9]] 3 = 1 / 2 := by
    simp only [ms_r_code, List.zip_cons_cons, List.zip_nil_right, List.map_cons,
      List.map_nil, h1, h2, hsp, List.sum_cons, List.sum_nil, List.length_cons,
      List.length_nil]
    norm_num
  have hm : ms_r_claim sp [[1, 2, 4]] [[1, 3, 9]] 3 = 1 := by
    simp only [ms_r_claim, List.zip_cons_cons, List.zip_nil_right, List.map_cons,
      List.map_nil, h1, h2, hsp, List.sum_cons, List.sum_nil, List.length_cons,
      List.length_nil]
    norm_num
  refine ⟨hc, hm, ?_⟩
  rw [hc, hm]
  norm_num

/-- C7 witness: the Spearman aggregation theorem instantiated with the
constant `spearmanr` stub returning (1, 0), scipy's exact output on the
strictly increasing input pair. -/
theorem c7_ms_spearman_tuple_bug_witness :
    ((fun _ _ : List ℚ => ((1 : ℚ), (0 : ℚ))) [1, 2, 4] [1, 3, 9] = (1, 0)) ∧
    ms_r_code (fun _ _ : List ℚ => ((1 : ℚ), (0 : ℚ))) [[1, 2, 4]] [[1, 3, 9]] 3 =
      1 / 2 :=
  ⟨rfl,
    (c7_ms_spearman_tuple_bug (fun _ _ : List ℚ => ((1 : ℚ), (0 : ℚ))) rfl).1⟩

end DeepMae
